import Mathlib

/-!
Verification of the SAT-oracle backend (`backend/logic.py`).

The development embeds the `SatOracleBuilder` class as Lean functions:

* boolean expressions (the sympy expression tree restricted to the boolean
  connectives the backend accepts) with variables already resolved to their
  qubit index via `var_map = {name: i for i, name in enumerate(var_names)}`;
* CNF formulas as lists of clauses, a clause being a list of literals
  (variable index plus polarity), matching the shape `to_cnf` hands to
  `build_oracle_circuit`;
* the oracle gate list produced by `build_oracle_circuit`, together with a
  classical reversible emulation of the gates (`x` = bit flip, `mcx` = flip
  target when all controls are 1, `z`/`mcp(pi)` = phase flip when all
  operands are 1);
* the classical brute-force solver `solve_classically`;
* the Grover circuit assembly `construct_grover_circuit`/`add_diffuser`;
* the iteration formula of `solve_quantum` (real arithmetic stands in for
  Python floats) and the adaptive loop of `solve_unknown` (its growth factor
  1.2 and the bound test `m <= sqrt(N) * 2` are carried on exact rationals;
  the test is expressed by squaring, `m^2 <= 4*N`, which agrees with the
  source's test for the positive `m` the loop maintains — see
  `m_bound_test_eq` below);
* the variable extraction of `parse_expression`
  (`sorted(list(set(re.findall(r'[a-zA-Z]+', s))))`), with sympy's
  `parse_expr` and `to_cnf` — external libraries — taken as parameters;
  `to_cnf`'s output enters as named clauses (`RawCNF`), and the
  `var_map[str(sym)]` lookups of `apply_clause` are performed by
  `resolveCNF`, so a constant CNF (sympy returns `False` for a
  contradiction) or an unknown symbol fails with the source's
  `KeyError` after a successful parse.

External collaborators (sympy parsing/CNF conversion, the Aer simulator and
the randint sampler) appear as function parameters; everything else is
translated from the source.
-/

/-- A CNF literal after `var_map` resolution: a variable's qubit index and
whether the literal is negated (`isinstance(lit, Not)` in `apply_clause`). -/
structure Literal where
  idx : Nat
  neg : Bool
deriving DecidableEq, Repr

/-- A clause: `Or`-arguments list (a single literal stands alone, as in the
`else: literals = [clause]` branch of `apply_clause`). -/
abbrev Clause := List Literal

/-- A CNF formula: the `And`-arguments list handed to the compile loop of
`build_oracle_circuit` (a single clause stands alone). -/
abbrev CNF := List Clause

/-- Truth value of a literal under an assignment of bits to qubit indices. -/
def evalLit (σ : Nat → Bool) (l : Literal) : Bool :=
  if l.neg then ! σ l.idx else σ l.idx

/-- Truth value of a clause (disjunction of its literals). -/
def evalClause (σ : Nat → Bool) (c : Clause) : Bool := c.any (evalLit σ)

/-- Truth value of a CNF formula (conjunction of its clauses). -/
def evalCNF (σ : Nat → Bool) (f : CNF) : Bool := f.all (evalClause σ)

/-- The boolean expression returned by sympy's `parse_expr` for the
connectives `&`, `|`, `~`, with variables resolved to their index in the
sorted `var_names` list. -/
inductive BExpr where
  | var (i : Nat)
  | not (e : BExpr)
  | and (a b : BExpr)
  | or (a b : BExpr)
deriving DecidableEq, Repr

/-- Truthiness of `expr.subs(assignment)` for a fully boolean expression. -/
def BExpr.eval (σ : Nat → Bool) : BExpr → Bool
  | .var i => σ i
  | .not e => ! e.eval σ
  | .and a b => a.eval σ && b.eval σ
  | .or a b => a.eval σ || b.eval σ

/-- Embedding of `format(i, f'0{n}b')`: the `n`-digit binary string of `i`, most
significant bit first, as a list of bits (character `'1'` ↦ `true`). -/
def binStr : Nat → Nat → List Bool
  | 0, _ => []
  | n + 1, i => binStr n (i / 2) ++ [i % 2 == 1]

/-- Numeric value of a most-significant-bit-first bit list (the inverse of
`binStr`, used to reason about the enumeration order). -/
def bitsToNat (bs : List Bool) : Nat :=
  bs.foldl (fun a b => 2 * a + (if b then 1 else 0)) 0

/-- Embeds `solve_classically` (logic.py lines 33–46): enumerate `i` in
`range(2**num_vars)`, build `assignment = {var_names[j]: int(bin_str[j])}`
— variable `j` reads character `j` of the bitstring — and collect the
bitstrings whose assignment satisfies the expression. -/
def solve_classically (numVars : Nat) (expr : BExpr) : List (List Bool) :=
  ((List.range (2 ^ numVars)).filter
    (fun i => expr.eval (fun j => (binStr numVars i).getD j false))).map
    (binStr numVars)

/-- The primitive gates `build_oracle_circuit` emits. -/
inductive Gate where
  | x (q : Nat)
  | mcx (controls : List Nat) (target : Nat)
  | z (q : Nat)
  | mcp (controls : List Nat) (target : Nat)
deriving DecidableEq, Repr

/-- Classical reversible emulation state: the qubit register (a fixed-length
bit list) and the accumulated phase sign (`true` = flipped). -/
structure QState where
  bits : List Bool
  phase : Bool
deriving DecidableEq, Repr

/-- Bit at qubit `q` (out-of-range reads as `false`). -/
def QState.bit (s : QState) (q : Nat) : Bool := s.bits.getD q false

/-- One gate as classical reversible logic: `x` flips a bit, `mcx` adds the
conjunction of its controls onto the target bit, `z` flips the phase when
its qubit is 1, `mcp(pi)` flips the phase when all controls and the target
are 1. -/
def applyGate (s : QState) : Gate → QState
  | .x q => ⟨s.bits.set q (! s.bit q), s.phase⟩
  | .mcx cs t => ⟨s.bits.set t (xor (s.bit t) (cs.all s.bit)), s.phase⟩
  | .z q => ⟨s.bits, xor s.phase (s.bit q)⟩
  | .mcp cs t => ⟨s.bits, xor s.phase (cs.all s.bit && s.bit t)⟩

/-- Run a gate list left to right. -/
def runGates (gs : List Gate) (s : QState) : QState := gs.foldl applyGate s

/-- The list `qubits_to_check` of `apply_clause`: every literal's qubit, in clause
order. -/
def clauseChecks (c : Clause) : List Nat := c.map (fun l => l.idx)

/-- The list `x_gates_to_apply` of `apply_clause`: the qubits of the positive
literals, in clause order. -/
def clauseXs (c : Clause) : List Nat :=
  (c.filter (fun l => ! l.neg)).map (fun l => l.idx)

/-- Embeds `apply_clause` (logic.py lines 64–96): flip the positive-literal qubits,
apply `mcx` from all literal qubits onto the clause ancilla, unflip, then
flip the ancilla so that 1 means "clause satisfied".  (`qc.x(lst)` on a list
applies an `x` per entry; an empty list contributes no gate.) -/
def apply_clause (c : Clause) (target : Nat) : List Gate :=
  (clauseXs c).map Gate.x ++ [Gate.mcx (clauseChecks c) target]
    ++ (clauseXs c).map Gate.x ++ [Gate.x target]

/-- The multi-controlled phase step shared by the oracle (lines 103–107) and
the diffuser (lines 304–307): `z` on a single qubit, otherwise
`mcp(pi, qs[:-1], qs[-1])`; no gate when the list is empty. -/
def phaseGates (qs : List Nat) : List Gate :=
  match qs with
  | [] => []
  | [q] => [Gate.z q]
  | _ :: _ :: _ => [Gate.mcp qs.dropLast (qs.getLastD 0)]

/-- One compute (or uncompute) pass: `apply_clause` for each listed
(clause, ancilla) pair in order. -/
def clausePass (pairs : List (Clause × Nat)) : List Gate :=
  (pairs.map (fun p => apply_clause p.1 p.2)).flatten

/-- Embeds `build_oracle_circuit` (logic.py lines 48–113), gate-emission part: the
clause ancillas are qubits `numVars …​ numVars+numClauses-1`; compute every
clause (lines 99–100), phase-flip on all ancillas (lines 103–107), then
uncompute in reverse clause order (lines 110–111). -/
def build_oracle_circuit (numVars : Nat) (clauses : CNF) : List Gate :=
  let clauseQubits := List.range' numVars clauses.length
  let pairs := clauses.zip clauseQubits
  clausePass pairs ++ phaseGates clauseQubits ++ clausePass pairs.reverse

/-- Well-formedness of a clause as sympy's simplified CNF delivers it to the
compiler: non-constant (hence non-empty), variables among the discovered
ones, and no variable repeated inside the clause (sympy's `Or` flattens
duplicates and evaluates complementary pairs away). -/
def wfClause (numVars : Nat) (c : Clause) : Prop :=
  c ≠ [] ∧ (∀ l ∈ c, l.idx < numVars) ∧ (clauseChecks c).Nodup

/-- Well-formedness of the clause list handed to the compile loop. -/
def wfCNF (numVars : Nat) (f : CNF) : Prop := ∀ c ∈ f, wfClause numVars c

instance (numVars : Nat) (c : Clause) : Decidable (wfClause numVars c) := by
  unfold wfClause
  infer_instance

instance (numVars : Nat) (f : CNF) : Decidable (wfCNF numVars f) := by
  unfold wfCNF
  infer_instance

/-- Circuit-level operations of the full Grover circuit: Hadamards and
measurements surround the purely reversible oracle/diffuser gates. -/
inductive COp where
  | h (q : Nat)
  | gate (g : Gate)
  | measure (q c : Nat)
deriving DecidableEq, Repr

/-- Embeds `add_diffuser` (logic.py lines 291–313): H on the targets, X on the
targets, the multi-controlled phase step, X, H. -/
def add_diffuser (targets : List Nat) : List COp :=
  targets.map COp.h
    ++ targets.map (fun q => COp.gate (Gate.x q))
    ++ (phaseGates targets).map COp.gate
    ++ targets.map (fun q => COp.gate (Gate.x q))
    ++ targets.map COp.h

/-- Embeds `construct_grover_circuit` (logic.py lines 315–336): H on every
objective qubit, `iterations` repetitions of (oracle; diffuser), then
`measure(objective_qubits, range(len(objective_qubits)))` — objective qubit
`i` into classical bit `i`. -/
def construct_grover_circuit (oracleGates : List Gate) (objective : List Nat)
    (iterations : Nat) : List COp :=
  objective.map COp.h
    ++ (List.replicate iterations
        (oracleGates.map COp.gate ++ add_diffuser objective)).flatten
    ++ (objective.zip (List.range objective.length)).map
        (fun p => COp.measure p.1 p.2)

/-- The measured bitstring the execution backend reports for the variable
assignment `σ` (variable `i` sits on qubit `i` and is measured into
classical bit `i`): the counts key prints classical bits most significant
first, `c_{n-1} … c_0`, as the source documents at logic.py lines 147–153
("Result string '10' means c1=1, c0=0") and decodes at lines 242–248. -/
def backendBitstring (numVars : Nat) (σ : Nat → Bool) : List Bool :=
  (List.range numVars).map (fun j => σ (numVars - 1 - j))

/-- Character class of the regex `[a-zA-Z]`. -/
def isAlphaChar (c : Char) : Bool :=
  ('a' ≤ c && c ≤ 'z') || ('A' ≤ c && c ≤ 'Z')

/-- Scanner for `re.findall(r'[a-zA-Z]+', s)`: `acc` holds the reversed
characters of the alphabetic run currently being read. -/
def alphaRunsAux : List Char → List Char → List String
  | [], acc => if acc = [] then [] else [String.mk acc.reverse]
  | c :: rest, acc =>
    if isAlphaChar c then
      alphaRunsAux rest (c :: acc)
    else
      if acc = [] then
        alphaRunsAux rest []
      else
        String.mk acc.reverse :: alphaRunsAux rest []

/-- Embedding of `re.findall(r'[a-zA-Z]+', s)`: the maximal alphabetic runs of the
string, in order of appearance. -/
def alphaRuns (l : List Char) : List String := alphaRunsAux l []

/-- Python's string comparison `a <= b`: lexicographic by code point. -/
def charListLe : List Char → List Char → Bool
  | [], _ => true
  | _ :: _, [] => false
  | a :: as, b :: bs =>
    if a < b then true else if b < a then false else charListLe as bs

/-- Comparison `a <= b` on strings, lexicographic by code point as in Python. -/
def stringLe (a b : String) : Bool := charListLe a.toList b.toList

/-- Embedding of `sorted(list(set(re.findall(r'[a-zA-Z]+', s))))` of `parse_expression`
(logic.py line 18): the distinct variable tokens in lexicographic order
(Python's `sorted` on distinct strings does not depend on the set's
iteration order — see the determinism conjunct of the parse theorem). -/
def varNames (s : String) : List String :=
  ((alphaRuns s.toList).dedup).insertionSort (fun a b => stringLe a b = true)

/-- Embeds `parse_expression` (logic.py lines 16–31).  sympy's `parse_expr` is the
external parameter `pext`; its failure message is abbreviated to the fixed
prefix of the source's `f"failed to parse expression: {e}"`. -/
def parse_expression (pext : String → Option BExpr) (s : String) :
    Except String (BExpr × List String) :=
  if varNames s = [] then .error "no variables found in expression"
  else
    match pext s with
    | none => .error "failed to parse expression"
    | some e => .ok (e, varNames s)

/-- The value `build_oracle_circuit` returns at the string level: the gate
list, `objective_qubits = list(range(num_vars))`, and
`num_qubits = num_vars + num_clauses`. -/
structure OracleCircuit where
  gates : List Gate
  objective : List Nat
  numQubits : Nat
deriving Repr

/-- A literal as `apply_clause` receives it from sympy, before the
`var_map[str(sym)]` lookup: `name` is `str(sym)` of the (possibly negated)
operand.  sympy boolean constants surface here too — the constant `False`
destructures to a one-literal clause whose `name` is `"False"` (and
likewise `"True"`), since `isinstance` tests for `Or`/`Not` both fail on
it. -/
structure RawLiteral where
  name : String
  neg : Bool
deriving DecidableEq, Repr

/-- A clause of `to_cnf`'s output after the `Or`-argument destructuring. -/
abbrev RawClause := List RawLiteral

/-- The output of sympy's `to_cnf` after the `And`/`Or`/`Not` destructuring
of `build_oracle_circuit` (lines 53–56, 65–82): clauses of named literals.
`to_cnf` itself is external, so it enters as a parameter of this type. -/
abbrev RawCNF := List RawClause

/-- The dictionary `var_map = {name: i for i, name in enumerate(var_names)}`
(line 58): the index of `name` in `var_names`, or `none` when the lookup
would raise `KeyError`. -/
def varIndex (vars : List String) (name : String) : Option Nat :=
  match vars with
  | [] => none
  | v :: rest =>
    if v = name then some 0 else (varIndex rest name).map (fun i => i + 1)

/-- The `var_map[str(sym)]` lookup of `apply_clause` (lines 76, 80): on a
miss Python raises `KeyError(str(sym))`, whose message prints the key in
quotes — `str(KeyError('False')) = "'False'"`. -/
def resolveLit (vars : List String) (l : RawLiteral) :
    Except String Literal :=
  match varIndex vars l.name with
  | some i => .ok ⟨i, l.neg⟩
  | none => .error ("'" ++ l.name ++ "'")

/-- Resolve a clause's literals in program order: the first failing lookup
is the one whose `KeyError` the source raises. -/
def resolveClause (vars : List String) : RawClause → Except String Clause
  | [] => .ok []
  | l :: ls =>
    match resolveLit vars l with
    | .error e => .error e
    | .ok lit =>
      match resolveClause vars ls with
      | .error e => .error e
      | .ok lits => .ok (lit :: lits)

/-- Resolve every clause in program order (the compute pass of lines
99–100 visits clauses first to last, so the first failing clause raises). -/
def resolveCNF (vars : List String) : RawCNF → Except String CNF
  | [] => .ok []
  | c :: cs =>
    match resolveClause vars c with
    | .error e => .error e
    | .ok c2 =>
      match resolveCNF vars cs with
      | .error e => .error e
      | .ok cs2 => .ok (c2 :: cs2)

/-- Embeds `build_oracle_circuit` at the string level: parse (its
exceptions propagate), convert to CNF via the external `toCNF`, resolve
every literal through `var_map` — this is where a constant CNF (such as
`to_cnf(A & ~A, simplify=True) = False`) or an unknown symbol raises
`KeyError` after a successful parse — and emit the gates. -/
def build_oracle_circuitE (toCNF : BExpr → RawCNF)
    (pext : String → Option BExpr) (s : String) :
    Except String OracleCircuit :=
  match parse_expression pext s with
  | .error e => .error e
  | .ok (e, vars) =>
    match resolveCNF vars (toCNF e) with
    | .error e2 => .error e2
    | .ok cnf =>
      .ok ⟨build_oracle_circuit vars.length cnf, List.range vars.length,
        vars.length + cnf.length⟩

/-- Embedding of `theta = math.asin(math.sqrt(M / N))` (logic.py line 133), on reals. -/
noncomputable def grover_theta (M N : Nat) : Real :=
  Real.arcsin (Real.sqrt ((M : Real) / (N : Real)))

/-- The automatic iteration count of `solve_quantum` (logic.py lines
126–134): `0` when `M = 0`, else `max(1, int(round(pi / (4*theta) - 0.5)))`
(float arithmetic modelled on exact reals). -/
noncomputable def grover_iterations_auto (M N : Nat) : Nat :=
  if M = 0 then 0
  else (max 1 (round (Real.pi / (4 * grover_theta M N) - 0.5))).toNat

/-- The dictionary `solve_quantum` returns. -/
structure QuantumRunResult where
  topMeasurement : List Bool
  iterationsUsed : Nat
  oracleQubits : Nat

/-- Step 2 of `solve_quantum` (logic.py lines 126–134): the supplied
iteration count, or the automatic one with `M = len(solve_classically(...))`
and `N = 2 ** len(objective_qubits)` (`objective_qubits` is
`range(num_vars)`). -/
noncomputable def solve_quantum_iterations (e : BExpr) (numVars : Nat)
    (iterations : Option Nat) : Nat :=
  match iterations with
  | some k => k
  | none =>
    grover_iterations_auto (solve_classically numVars e).length (2 ^ numVars)

/-- Embeds `solve_quantum` (logic.py lines 115–159).  Its `try/except`
around `build_oracle_circuit` wraps every compile failure — a parse error
or a post-parse `var_map` `KeyError` — as
`ValueError("Error creating Oracle: ...")`; on success the iteration count
is the supplied one or the automatic one computed from
`solve_classically`, and the external `run` (transpile + AerSimulator +
top measurement) supplies the measured outcome. -/
noncomputable def solve_quantumE (toCNF : BExpr → RawCNF)
    (pext : String → Option BExpr) (run : List COp → List Bool) (s : String)
    (iterations : Option Nat) : Except String QuantumRunResult :=
  match parse_expression pext s with
  | .error e => .error ("Error creating Oracle: " ++ e)
  | .ok (e, vars) =>
    match resolveCNF vars (toCNF e) with
    | .error e2 => .error ("Error creating Oracle: " ++ e2)
    | .ok cnf =>
      let og := build_oracle_circuit vars.length cnf
      let obj := List.range vars.length
      let its := solve_quantum_iterations e vars.length iterations
      .ok ⟨run (construct_grover_circuit og obj its), its,
        vars.length + cnf.length⟩

/-- Embeds `get_histogram_data` (logic.py lines 161–187): on any
oracle-compilation failure — parse error or post-parse `var_map`
`KeyError` — the bare `except` returns the empty dictionary (modelled as
the empty association list); otherwise it runs the Grover circuit and
returns the counts from the external backend. -/
noncomputable def get_histogram_data (toCNF : BExpr → RawCNF)
    (pext : String → Option BExpr)
    (runCounts : List COp → List (List Bool × Nat)) (s : String)
    (iterations : Option Nat) : List (List Bool × Nat) :=
  match parse_expression pext s with
  | .error _ => []
  | .ok (e, vars) =>
    match resolveCNF vars (toCNF e) with
    | .error _ => []
    | .ok cnf =>
      let og := build_oracle_circuit vars.length cnf
      let obj := List.range vars.length
      let its := solve_quantum_iterations e vars.length iterations
      runCounts (construct_grover_circuit og obj its)

/-- Growth factor `lam = 1.2` of `solve_unknown` (logic.py line 219), as the
exact rational 6/5. -/
def lam : Rat := 6 / 5

/-- The `random.randint(1, max(1, int(m)))` call of `solve_unknown` (line
230): the external sampler `R` receives the attempt index and the inclusive
bounds 1 and `max(1, int(m))`. -/
def attempt_draw (R : Nat → Nat → Nat → Nat) (a : Nat) (m : Rat) : Nat :=
  R a 1 (max 1 m.floor.toNat)

/-- The classical verification step of `solve_unknown` (lines 244–250):
variable `i` reads character `-(i+1)` of the top measurement — position
`len - 1 - i` — and the assignment is substituted into the parsed
expression. -/
def verify_top (expr : BExpr) (top : List Bool) : Bool :=
  expr.eval (fun i => top.getD (top.length - 1 - i) false)

/-- The dictionary `solve_unknown` returns. -/
structure UnknownResult where
  found : Bool
  solution : Option (List Bool)
  iterationsUsed : Option Nat
  attempts : Nat
deriving DecidableEq, Repr

/-- The `while m <= max_m` loop of `solve_unknown` (logic.py lines
227–271), with `max_m = math.sqrt(N) * 2`.  The bound test is carried as
`m^2 <= 4*N`, which equals the source's test for the positive `m` the loop
maintains (`m_bound_test_eq`).  `tops` is the stream of per-attempt top
measurements from the external backend; the expression's satisfying
assignments do not depend on it.  The structural `fuel` argument only makes
the recursion syntactically terminating: `solve_unknown` supplies
`unknown_fuel numVars`, and `solve_unknown_go_fuel_stable` shows the loop
condition fails before the fuel can run out, so the embedded function is
the while loop itself. -/
def solve_unknown_go (expr : BExpr) (R : Nat → Nat → Nat → Nat)
    (tops : Nat → List Bool) (N : Nat) :
    Rat → Nat → Nat → UnknownResult
  | _, attempts, 0 => ⟨false, none, none, attempts⟩
  | m, attempts, fuel + 1 =>
    if m ^ 2 ≤ 4 * (N : Rat) then
      let its := attempt_draw R attempts m
      let top := tops attempts
      if verify_top expr top then
        ⟨true, some top, some its, attempts + 1⟩
      else
        solve_unknown_go expr R tops N (m * lam) (attempts + 1) fuel
    else ⟨false, none, none, attempts⟩

/-- A fuel amount past the loop's exit point: after `2*numVars + 4` failed
attempts `m^2 = (36/25)^(2*numVars+4) > 4*2^numVars`, so the condition has
failed by then. -/
def unknown_fuel (numVars : Nat) : Nat := 2 * numVars + 5

/-- Embeds `solve_unknown` (logic.py lines 203–271), after a successful parse:
`N = 2**num_vars`, `m` starts at 1, attempts start at 0. -/
def solve_unknown (expr : BExpr) (numVars : Nat) (R : Nat → Nat → Nat → Nat)
    (tops : Nat → List Bool) : UnknownResult :=
  solve_unknown_go expr R tops (2 ^ numVars) 1 0 (unknown_fuel numVars)

/-- Embeds `solve_unknown` at the string level: `parse_expression` is
called first (line 208) and its error propagates unwrapped; afterwards the
`try/except` of lines 212–215 wraps any remaining `build_oracle_circuit`
failure (a post-parse `var_map` `KeyError`) as
`ValueError("Error creating Oracle: ...")`; only when compilation succeeds
does the retry loop run. -/
def solve_unknownE (toCNF : BExpr → RawCNF) (pext : String → Option BExpr)
    (R : Nat → Nat → Nat → Nat) (tops : Nat → List Bool) (s : String) :
    Except String UnknownResult :=
  match parse_expression pext s with
  | .error e => .error e
  | .ok (e, vars) =>
    match resolveCNF vars (toCNF e) with
    | .error e2 => .error ("Error creating Oracle: " ++ e2)
    | .ok _ => .ok (solve_unknown e vars.length R tops)

/-- The expression `A & ~A` after parsing (`var_names = ["A"]`). -/
def exprContradiction : BExpr := BExpr.and (.var 0) (.not (.var 0))

/-- The expression `A & B` after parsing (`var_names = ["A", "B"]`). -/
def exprAB : BExpr := BExpr.and (.var 0) (.var 1)

/-- The expression `A & ~B` after parsing (`var_names = ["A", "B"]`). -/
def exprAnotB : BExpr := BExpr.and (.var 0) (.not (.var 1))

/-! ### Reversible-emulation groundwork -/

theorem length_applyGate (s : QState) (g : Gate) :
    (applyGate s g).bits.length = s.bits.length := by
  cases g <;> simp [applyGate]

theorem runGates_append (gs hs : List Gate) (s : QState) :
    runGates (gs ++ hs) s = runGates hs (runGates gs s) := by
  simp [runGates, List.foldl_append]

theorem runGates_cons (g : Gate) (gs : List Gate) (s : QState) :
    runGates (g :: gs) s = runGates gs (applyGate s g) := rfl

theorem runGates_singleton (g : Gate) (s : QState) :
    runGates [g] s = applyGate s g := rfl

theorem length_runGates (gs : List Gate) (s : QState) :
    (runGates gs s).bits.length = s.bits.length := by
  induction gs generalizing s with
  | nil => rfl
  | cons g gs ih => rw [runGates_cons, ih, length_applyGate]

theorem getD_set_self (l : List Bool) (q : Nat) (v : Bool) (h : q < l.length) :
    (l.set q v).getD q false = v := by
  simp [List.getD_eq_getElem?_getD, List.getElem?_set, h]

theorem getD_set_other (l : List Bool) (q r : Nat) (v : Bool) (h : r ≠ q) :
    (l.set q v).getD r false = l.getD r false := by
  simp [List.getD_eq_getElem?_getD, List.getElem?_set, Ne.symm h]

theorem bit_x_self (s : QState) (q : Nat) (h : q < s.bits.length) :
    (applyGate s (.x q)).bit q = ! s.bit q := by
  simp [applyGate, QState.bit, List.getD_eq_getElem?_getD, List.getElem?_set, h]

theorem bit_x_other (s : QState) (q r : Nat) (h : r ≠ q) :
    (applyGate s (.x q)).bit r = s.bit r := by
  simp [applyGate, QState.bit, List.getD_eq_getElem?_getD, List.getElem?_set,
    Ne.symm h]

theorem phase_x (s : QState) (q : Nat) :
    (applyGate s (.x q)).phase = s.phase := rfl

theorem bit_mcx_self (s : QState) (cs : List Nat) (t : Nat)
    (h : t < s.bits.length) :
    (applyGate s (.mcx cs t)).bit t = xor (s.bit t) (cs.all s.bit) := by
  simp [applyGate, QState.bit, List.getD_eq_getElem?_getD, List.getElem?_set, h]

theorem bit_mcx_other (s : QState) (cs : List Nat) (t r : Nat) (h : r ≠ t) :
    (applyGate s (.mcx cs t)).bit r = s.bit r := by
  simp [applyGate, QState.bit, List.getD_eq_getElem?_getD, List.getElem?_set,
    Ne.symm h]

theorem phase_mcx (s : QState) (cs : List Nat) (t : Nat) :
    (applyGate s (.mcx cs t)).phase = s.phase := rfl

theorem run_x_map (L : List Nat) (s : QState) (hnd : L.Nodup)
    (hin : ∀ q ∈ L, q < s.bits.length) :
    (runGates (L.map Gate.x) s).phase = s.phase ∧
    ∀ r, (runGates (L.map Gate.x) s).bit r =
      xor (s.bit r) (decide (r ∈ L)) := by
  induction L generalizing s with
  | nil => simp [runGates]
  | cons a L ih =>
    have ha : a < s.bits.length := hin a (List.mem_cons_self a L)
    have hin' : ∀ q ∈ L, q < (applyGate s (.x a)).bits.length := by
      intro q hq; rw [length_applyGate]; exact hin q (List.mem_cons_of_mem _ hq)
    obtain ⟨hphase, hbit⟩ := ih (applyGate s (.x a)) hnd.of_cons hin'
    rw [List.map_cons, runGates_cons]
    refine ⟨by rw [hphase, phase_x], ?_⟩
    intro r
    rw [hbit r]
    by_cases hr : r = a
    · subst hr
      have hna : r ∉ L := by
        intro hmem; exact (List.nodup_cons.1 hnd).1 hmem
      rw [bit_x_self s r ha]
      simp [hna]
    · rw [bit_x_other s a r hr]
      simp [hr]

theorem list_any_congr {α : Type} (l : List α) (f g : α → Bool)
    (h : ∀ x ∈ l, f x = g x) : l.any f = l.any g := by
  induction l with
  | nil => rfl
  | cons a l ih =>
    simp only [List.any_cons]
    rw [h a (List.mem_cons_self a l),
      ih (fun x hx => h x (List.mem_cons_of_mem _ hx))]

theorem list_all_congr {α : Type} (l : List α) (f g : α → Bool)
    (h : ∀ x ∈ l, f x = g x) : l.all f = l.all g := by
  induction l with
  | nil => rfl
  | cons a l ih =>
    simp only [List.all_cons]
    rw [h a (List.mem_cons_self a l),
      ih (fun x hx => h x (List.mem_cons_of_mem _ hx))]

theorem all_eq_not_any {α : Type} (l : List α) (f g : α → Bool)
    (h : ∀ x ∈ l, f x = ! g x) : l.all f = ! l.any g := by
  induction l with
  | nil => rfl
  | cons a l ih =>
    simp only [List.all_cons, List.any_cons, Bool.not_or]
    rw [h a (List.mem_cons_self a l),
      ih (fun x hx => h x (List.mem_cons_of_mem _ hx))]

theorem evalClause_congr (c : Clause) (σ τ : Nat → Bool)
    (h : ∀ l ∈ c, σ l.idx = τ l.idx) : evalClause σ c = evalClause τ c := by
  unfold evalClause
  refine list_any_congr _ _ _ (fun l hl => ?_)
  unfold evalLit
  rw [h l hl]

theorem mem_clauseXs_iff (c : Clause) (l : Literal)
    (hnd : (clauseChecks c).Nodup) (hl : l ∈ c) :
    l.idx ∈ clauseXs c ↔ l.neg = false := by
  constructor
  · intro hmem
    rcases List.mem_map.1 hmem with ⟨l', hl', heq⟩
    rcases List.mem_filter.1 hl' with ⟨hl'c, hneg⟩
    have : l' = l := List.inj_on_of_nodup_map hnd hl'c hl heq
    subst this
    simpa using hneg
  · intro hneg
    exact List.mem_map.2 ⟨l, List.mem_filter.2 ⟨hl, by simp [hneg]⟩, rfl⟩

theorem not_mem_clauseXs (c : Clause) (t : Nat) (hnt : ∀ l ∈ c, l.idx ≠ t) :
    t ∉ clauseXs c := by
  intro hmem
  rcases List.mem_map.1 hmem with ⟨l', hl', heq⟩
  exact hnt l' (List.mem_filter.1 hl').1 heq

theorem nodup_clauseXs (c : Clause) (hnd : (clauseChecks c).Nodup) :
    (clauseXs c).Nodup := by
  unfold clauseChecks at hnd
  unfold clauseXs
  exact ((List.filter_sublist c).map (fun l => l.idx)).nodup hnd

theorem mem_clauseXs_lt (c : Clause) (q : Nat) (n : Nat)
    (hlt : ∀ l ∈ c, l.idx < n) (hq : q ∈ clauseXs c) : q < n := by
  rcases List.mem_map.1 hq with ⟨l', hl', heq⟩
  exact heq ▸ hlt l' (List.mem_filter.1 hl').1

theorem list_all_map_fn {α β : Type} (l : List α) (f : α → β) (p : β → Bool) :
    (l.map f).all p = l.all (fun x => p (f x)) := by
  induction l with
  | nil => rfl
  | cons a l ih => simp [List.all_cons, ih]

theorem run_apply_clause (c : Clause) (t : Nat) (s : QState)
    (hlt : ∀ l ∈ c, l.idx < s.bits.length) (hnt : ∀ l ∈ c, l.idx ≠ t)
    (hnd : (clauseChecks c).Nodup) (ht : t < s.bits.length) :
    (runGates (apply_clause c t) s).phase = s.phase ∧
    ∀ r, (runGates (apply_clause c t) s).bit r =
      if r = t then xor (s.bit t) (evalClause s.bit c) else s.bit r := by
  have hndX : (clauseXs c).Nodup := nodup_clauseXs c hnd
  have hinX : ∀ q ∈ clauseXs c, q < s.bits.length := fun q hq =>
    mem_clauseXs_lt c q _ hlt hq
  have htX : t ∉ clauseXs c := not_mem_clauseXs c t hnt
  obtain ⟨hp1, hb1⟩ := run_x_map (clauseXs c) s hndX hinX
  have hl1 : (runGates ((clauseXs c).map Gate.x) s).bits.length
      = s.bits.length := length_runGates _ _
  set s1 := runGates ((clauseXs c).map Gate.x) s with hs1
  have hctrl : (clauseChecks c).all s1.bit = ! evalClause s.bit c := by
    have hmap : (clauseChecks c).all s1.bit
        = c.all (fun l => s1.bit l.idx) := by
      unfold clauseChecks
      rw [list_all_map_fn]
    rw [hmap]
    refine all_eq_not_any c _ _ (fun l hl => ?_)
    rw [hb1 l.idx]
    by_cases hlneg : l.neg
    · have hmemX : l.idx ∉ clauseXs c := by
        intro hmem
        have := (mem_clauseXs_iff c l hnd hl).1 hmem
        rw [this] at hlneg
        exact Bool.false_ne_true (by simpa using hlneg)
      simp [evalLit, hlneg, hmemX]
    · have hmemX : l.idx ∈ clauseXs c :=
        (mem_clauseXs_iff c l hnd hl).2 (by simpa using hlneg)
      simp [evalLit, hlneg, hmemX]
  set s2 := applyGate s1 (.mcx (clauseChecks c) t) with hs2
  have hl2 : s2.bits.length = s.bits.length := by
    rw [hs2, length_applyGate, hl1]
  have hb2t : s2.bit t = xor (s.bit t) (! evalClause s.bit c) := by
    rw [hs2, bit_mcx_self s1 _ t (by rw [hl1]; exact ht), hctrl, hb1 t]
    simp [htX]
  have hb2o : ∀ r, r ≠ t → s2.bit r = s1.bit r := fun r hr =>
    bit_mcx_other s1 _ t r hr
  have hp2 : s2.phase = s.phase := by rw [hs2, phase_mcx, hp1]
  obtain ⟨hp3, hb3⟩ := run_x_map (clauseXs c) s2 hndX
    (fun q hq => by rw [hl2]; exact hinX q hq)
  have hl3 : (runGates ((clauseXs c).map Gate.x) s2).bits.length
      = s.bits.length := by rw [length_runGates, hl2]
  set s3 := runGates ((clauseXs c).map Gate.x) s2 with hs3
  have hrw : runGates (apply_clause c t) s = applyGate s3 (.x t) := by
    unfold apply_clause
    rw [runGates_append, runGates_append, runGates_append, runGates_singleton,
      runGates_singleton, ← hs1, ← hs2, ← hs3]
  rw [hrw]
  constructor
  · rw [phase_x, hp3, hp2]
  · intro r
    by_cases hr : r = t
    · subst hr
      have hdec : decide (r ∈ clauseXs c) = false := by simp [htX]
      rw [if_pos rfl, bit_x_self s3 r (by rw [hl3]; exact ht), hb3 r, hdec,
        hb2t]
      cases s.bit r <;> cases evalClause s.bit c <;> rfl
    · rw [bit_x_other s3 t r hr, hb3 r, hb2o r hr, hb1 r, if_neg hr]
      cases s.bit r <;> cases decide (r ∈ clauseXs c) <;> rfl

theorem run_clausePass (pairs : List (Clause × Nat)) (numVars : Nat)
    (s : QState)
    (hwf : ∀ p ∈ pairs, (clauseChecks p.1).Nodup ∧ ∀ l ∈ p.1, l.idx < numVars)
    (htg : ∀ p ∈ pairs, numVars ≤ p.2 ∧ p.2 < s.bits.length)
    (hnd : (pairs.map Prod.snd).Nodup) :
    (runGates (clausePass pairs) s).phase = s.phase ∧
    (∀ q, q ∉ pairs.map Prod.snd →
      (runGates (clausePass pairs) s).bit q = s.bit q) ∧
    ∀ p ∈ pairs, (runGates (clausePass pairs) s).bit p.2 =
      xor (s.bit p.2) (evalClause s.bit p.1) := by
  induction pairs generalizing s with
  | nil => simp [clausePass, runGates]
  | cons hd tl ih =>
    have hcph : clausePass (hd :: tl)
        = apply_clause hd.1 hd.2 ++ clausePass tl := by
      simp [clausePass]
    have hwfh := hwf hd (List.mem_cons_self hd tl)
    have htgh := htg hd (List.mem_cons_self hd tl)
    have hlt : ∀ l ∈ hd.1, l.idx < s.bits.length := fun l hl =>
      lt_trans (lt_of_lt_of_le (hwfh.2 l hl) htgh.1) htgh.2
    have hnt : ∀ l ∈ hd.1, l.idx ≠ hd.2 := fun l hl =>
      Nat.ne_of_lt (lt_of_lt_of_le (hwfh.2 l hl) htgh.1)
    obtain ⟨hbp, hbb⟩ := run_apply_clause hd.1 hd.2 s hlt hnt hwfh.1 htgh.2
    have hl1 : (runGates (apply_clause hd.1 hd.2) s).bits.length
        = s.bits.length := length_runGates _ _
    set s1 := runGates (apply_clause hd.1 hd.2) s with hs1
    have hrw : runGates (clausePass (hd :: tl)) s = runGates (clausePass tl) s1 := by
      rw [hcph, runGates_append, ← hs1]
    have hndtl : (tl.map Prod.snd).Nodup := (List.nodup_cons.1 hnd).2
    have hhd : hd.2 ∉ tl.map Prod.snd := (List.nodup_cons.1 hnd).1
    obtain ⟨ihp, ihout, ihin⟩ := ih s1
      (fun p hp => hwf p (List.mem_cons_of_mem _ hp))
      (fun p hp => ⟨(htg p (List.mem_cons_of_mem _ hp)).1, by
        rw [hl1]; exact (htg p (List.mem_cons_of_mem _ hp)).2⟩)
      hndtl
    rw [hrw]
    have hvar : ∀ q, q ≠ hd.2 → s1.bit q = s.bit q := by
      intro q hq
      rw [hbb q, if_neg hq]
    refine ⟨by rw [ihp, hbp], ?_, ?_⟩
    · intro q hq
      rw [List.map_cons, List.mem_cons] at hq
      push_neg at hq
      rw [ihout q hq.2, hvar q hq.1]
    · intro p hp
      rcases List.mem_cons.1 hp with hph | hptl
      · subst hph
        rw [ihout p.2 hhd, hbb p.2, if_pos rfl]
      · have hp2 : p.2 ≠ hd.2 := by
          intro h
          exact hhd (h ▸ List.mem_map.2 ⟨p, hptl, rfl⟩)
        have hcl : evalClause s1.bit p.1 = evalClause s.bit p.1 := by
          refine evalClause_congr _ _ _ (fun l hl => ?_)
          refine hvar l.idx (Nat.ne_of_lt ?_)
          exact lt_of_lt_of_le ((hwf p (List.mem_cons_of_mem _ hptl)).2 l hl)
            (htg hd (List.mem_cons_self hd tl)).1
        rw [ihin p hptl, hvar p.2 hp2, hcl]

theorem run_phaseGates (qs : List Nat) (s : QState) (hne : qs ≠ []) :
    runGates (phaseGates qs) s = ⟨s.bits, xor s.phase (qs.all s.bit)⟩ := by
  match qs with
  | [q] => simp [phaseGates, runGates, applyGate]
  | q1 :: q2 :: rest =>
    have hne2 : q1 :: q2 :: rest ≠ [] := by simp
    have hlast : (q1 :: q2 :: rest).getLastD 0 = (q1 :: q2 :: rest).getLast hne2 := by
      rw [List.getLastD_eq_getLast?, List.getLast?_eq_getLast _ hne2]
      rfl
    have hall : (q1 :: q2 :: rest).all s.bit
        = ((q1 :: q2 :: rest).dropLast.all s.bit
            && s.bit ((q1 :: q2 :: rest).getLast hne2)) := by
      conv_lhs => rw [← List.dropLast_append_getLast hne2]
      rw [List.all_append]
      simp
    show runGates [Gate.mcp (q1 :: q2 :: rest).dropLast
      ((q1 :: q2 :: rest).getLastD 0)] s = _
    rw [runGates_singleton, hlast]
    show QState.mk s.bits _ = _
    rw [hall]

/-! ### The enumeration encoding of `solve_classically` -/

theorem length_binStr (n i : Nat) : (binStr n i).length = n := by
  induction n generalizing i with
  | zero => rfl
  | succ n ih => simp [binStr, ih]

theorem bitsToNat_append_singleton (xs : List Bool) (b : Bool) :
    bitsToNat (xs ++ [b]) = 2 * bitsToNat xs + (if b then 1 else 0) := by
  simp [bitsToNat, List.foldl_append]

theorem bitsToNat_binStr (n i : Nat) (h : i < 2 ^ n) :
    bitsToNat (binStr n i) = i := by
  induction n generalizing i with
  | zero =>
    have : i = 0 := Nat.lt_one_iff.1 (by simpa using h)
    simp [this, binStr, bitsToNat]
  | succ n ih =>
    have hdiv : i / 2 < 2 ^ n := by
      rw [Nat.div_lt_iff_lt_mul (by norm_num)]
      calc i < 2 ^ (n + 1) := h
      _ = 2 ^ n * 2 := by ring
    rw [binStr, bitsToNat_append_singleton, ih (i / 2) hdiv]
    rcases Nat.mod_two_eq_zero_or_one i with hm | hm <;> simp [hm] <;> omega

theorem bitsToNat_lt (bs : List Bool) : bitsToNat bs < 2 ^ bs.length := by
  induction bs using List.reverseRecOn with
  | nil => simp [bitsToNat]
  | append_singleton xs b ih =>
    rw [bitsToNat_append_singleton]
    simp only [List.length_append, List.length_singleton]
    have : 2 ^ (xs.length + 1) = 2 * 2 ^ xs.length := by ring
    rw [this]
    cases b <;> simp <;> omega

theorem binStr_bitsToNat (bs : List Bool) :
    binStr bs.length (bitsToNat bs) = bs := by
  induction bs using List.reverseRecOn with
  | nil => rfl
  | append_singleton xs b ih =>
    rw [bitsToNat_append_singleton]
    simp only [List.length_append, List.length_singleton]
    rw [binStr]
    have hdiv : (2 * bitsToNat xs + (if b then 1 else 0)) / 2 = bitsToNat xs := by
      cases b <;> simp <;> omega
    have hmod : ((2 * bitsToNat xs + (if b then 1 else 0)) % 2 == 1) = b := by
      cases b <;> simp [Nat.add_mul_mod_self_left] <;> omega
    rw [hdiv, hmod, ih]

theorem binStr_inj (n i j : Nat) (hi : i < 2 ^ n) (hj : j < 2 ^ n)
    (h : binStr n i = binStr n j) : i = j := by
  rw [← bitsToNat_binStr n i hi, ← bitsToNat_binStr n j hj, h]

theorem mem_solve_classically (numVars : Nat) (expr : BExpr) (i : Nat)
    (hi : i < 2 ^ numVars) :
    binStr numVars i ∈ solve_classically numVars expr ↔
      expr.eval (fun j => (binStr numVars i).getD j false) = true := by
  unfold solve_classically
  rw [List.mem_map]
  constructor
  · rintro ⟨a, ha, heq⟩
    rcases List.mem_filter.1 ha with ⟨har, hap⟩
    have ha2 : a < 2 ^ numVars := List.mem_range.1 har
    have : a = i := binStr_inj numVars a i ha2 hi heq
    subst this
    exact of_decide_eq_true (by simpa using hap)
  · intro hev
    refine ⟨i, List.mem_filter.2 ⟨List.mem_range.2 hi, by simpa using hev⟩, rfl⟩

theorem getD_replicate_false (k m : Nat) :
    (List.replicate k false).getD m false = false := by
  rw [List.getD_eq_getElem?_getD, List.getElem?_replicate]
  split <;> rfl

theorem QState.eq_of_parts (s s' : QState) (hl : s.bits.length = s'.bits.length)
    (hb : ∀ q, s.bit q = s'.bit q) (hp : s.phase = s'.phase) : s = s' := by
  cases s with
  | mk bits phase =>
    cases s' with
    | mk bits' phase' =>
      simp only at hl hp
      subst hp
      have hbits : bits = bits' := by
        refine List.ext_getElem hl (fun n h1 h2 => ?_)
        have hn := hb n
        simp only [QState.bit] at hn
        rwa [List.getD_eq_getElem _ _ h1, List.getD_eq_getElem _ _ h2] at hn
      rw [hbits]

/-- C1.  For a CNF clause list as sympy's `to_cnf` delivers it (well
formed, non-empty, equivalent to the parsed expression on every assignment),
emulating the gate sequence of `build_oracle_circuit` as classical
reversible logic on any of the `2^numVars` assignments with all clause
ancillas initialized to 0 leaves every qubit — the ancillas in particular —
unchanged after the reverse-order uncompute, and flips the phase exactly
when the assignment's bitstring is among the solutions `solve_classically`
reports. -/
theorem oracle_marks_exactly_solutions (numVars : Nat) (clauses : CNF)
    (expr : BExpr) (hwf : wfCNF numVars clauses) (hne : clauses ≠ [])
    (hequiv : ∀ i, i < 2 ^ numVars →
      evalCNF (fun j => (binStr numVars i).getD j false) clauses
        = expr.eval (fun j => (binStr numVars i).getD j false))
    (i : Nat) (hi : i < 2 ^ numVars) (p : Bool) :
    runGates (build_oracle_circuit numVars clauses)
      ⟨binStr numVars i ++ List.replicate clauses.length false, p⟩
    = ⟨binStr numVars i ++ List.replicate clauses.length false,
       xor p (decide (binStr numVars i ∈ solve_classically numVars expr))⟩ := by
  set k := clauses.length with hk
  set ts := List.range' numVars k with hts
  set pairs := clauses.zip ts with hpairs
  set s0 : QState := ⟨binStr numVars i ++ List.replicate k false, p⟩ with hs0
  have len0 : s0.bits.length = numVars + k := by
    simp [hs0, length_binStr]
  have hlen_ts : ts.length = k := List.length_range' _ _ _
  have σle : ∀ j, j < numVars →
      s0.bit j = (binStr numVars i).getD j false := by
    intro j hj
    show (binStr numVars i ++ List.replicate k false).getD j false = _
    rw [List.getD_append _ _ _ j (by rw [length_binStr]; exact hj)]
  have σge : ∀ j, numVars ≤ j → s0.bit j = false := by
    intro j hj
    show (binStr numVars i ++ List.replicate k false).getD j false = false
    rw [List.getD_append_right _ _ _ _ (by rw [length_binStr]; exact hj),
      getD_replicate_false]
  have σfun : s0.bit = fun j => (binStr numVars i).getD j false := by
    funext j
    by_cases hj : j < numVars
    · exact σle j hj
    · rw [σge j (le_of_not_lt hj),
        List.getD_eq_default _ _ (by rw [length_binStr]; omega)]
  have hsnd : pairs.map Prod.snd = ts :=
    List.map_snd_zip _ _ (le_of_eq hlen_ts)
  have hfst : pairs.map Prod.fst = clauses :=
    List.map_fst_zip _ _ (le_of_eq hlen_ts.symm)
  have hnd_snd : (pairs.map Prod.snd).Nodup := by
    rw [hsnd, hts]
    exact List.nodup_range' _ _
  have hts_mem : ∀ q ∈ ts, numVars ≤ q ∧ q < numVars + k := by
    intro q hq
    rw [hts, List.mem_range'] at hq
    obtain ⟨j, hj, rfl⟩ := hq
    omega
  have hwf' : ∀ pr ∈ pairs, (clauseChecks pr.1).Nodup ∧
      ∀ l ∈ pr.1, l.idx < numVars := by
    intro pr hpr
    have h1 := (List.of_mem_zip hpr).1
    exact ⟨(hwf pr.1 h1).2.2, (hwf pr.1 h1).2.1⟩
  have htg : ∀ pr ∈ pairs, numVars ≤ pr.2 ∧ pr.2 < s0.bits.length := by
    intro pr hpr
    have h2 := hts_mem pr.2 (List.of_mem_zip hpr).2
    exact ⟨h2.1, by rw [len0]; exact h2.2⟩
  obtain ⟨cp_phase, cp_out, cp_in⟩ := run_clausePass pairs numVars s0 hwf' htg hnd_snd
  set s1 := runGates (clausePass pairs) s0 with hs1
  have len1 : s1.bits.length = s0.bits.length := length_runGates _ _
  have hanc : ∀ pr ∈ pairs, s1.bit pr.2 = evalClause s0.bit pr.1 := by
    intro pr hpr
    rw [cp_in pr hpr, σge pr.2 (htg pr hpr).1]
    cases evalClause s0.bit pr.1 <;> rfl
  have hvarp : ∀ q, q < numVars → s1.bit q = s0.bit q := by
    intro q hq
    refine cp_out q ?_
    rw [hsnd]
    intro hmem
    exact absurd (hts_mem q hmem).1 (by omega)
  have hk0 : k ≠ 0 := fun h => hne (List.length_eq_zero.1 (hk ▸ h))
  have hts_ne : ts ≠ [] := by
    intro h
    rw [h] at hlen_ts
    exact hk0 hlen_ts.symm
  have s2eq := run_phaseGates ts s1 hts_ne
  set s2 : QState := ⟨s1.bits, xor s1.phase (ts.all s1.bit)⟩ with hs2
  have hall : ts.all s1.bit = evalCNF s0.bit clauses := by
    rw [← hsnd, list_all_map_fn,
      list_all_congr pairs _ (fun pr => evalClause s0.bit pr.1) hanc]
    have : pairs.all (fun pr => evalClause s0.bit pr.1)
        = (pairs.map Prod.fst).all (evalClause s0.bit) := by
      rw [list_all_map_fn]
    rw [this, hfst]
    rfl
  have hwf2 : ∀ pr ∈ pairs.reverse, (clauseChecks pr.1).Nodup ∧
      ∀ l ∈ pr.1, l.idx < numVars := fun pr hpr =>
    hwf' pr (List.mem_reverse.1 hpr)
  have htg2 : ∀ pr ∈ pairs.reverse, numVars ≤ pr.2 ∧ pr.2 < s2.bits.length := by
    intro pr hpr
    have := htg pr (List.mem_reverse.1 hpr)
    exact ⟨this.1, by
      show pr.2 < s1.bits.length
      rw [len1]; exact this.2⟩
  have hnd2 : (pairs.reverse.map Prod.snd).Nodup := by
    rw [List.map_reverse]
    exact List.nodup_reverse.2 hnd_snd
  obtain ⟨up_phase, up_out, up_in⟩ := run_clausePass pairs.reverse numVars s2 hwf2 htg2 hnd2
  set s3 := runGates (clausePass pairs.reverse) s2 with hs3
  have hrun : runGates (build_oracle_circuit numVars clauses) s0 = s3 := by
    show runGates (clausePass pairs ++ phaseGates ts ++ clausePass pairs.reverse) s0 = s3
    rw [runGates_append, runGates_append, ← hs1, s2eq]
  rw [hrun]
  have hs2bit : ∀ q, s2.bit q = s1.bit q := fun q => rfl
  have hdec : decide (binStr numVars i ∈ solve_classically numVars expr)
      = decide (BExpr.eval (fun j => (binStr numVars i).getD j false) expr
          = true) :=
    decide_eq_decide.2 (mem_solve_classically numVars expr i hi)
  have hval : evalCNF s0.bit clauses
      = decide (binStr numVars i ∈ solve_classically numVars expr) := by
    rw [σfun, hequiv i hi, hdec]
    simp
  refine QState.eq_of_parts _ _ ?_ ?_ ?_
  · show s3.bits.length = s0.bits.length
    rw [length_runGates]
    show s1.bits.length = s0.bits.length
    exact len1
  · intro q
    show s3.bit q = s0.bit q
    by_cases hq : q ∈ pairs.map Prod.snd
    · rcases List.mem_map.1 hq with ⟨pr, hpr, rfl⟩
      have hprr : pr ∈ pairs.reverse := List.mem_reverse.2 hpr
      rw [up_in pr hprr, hs2bit pr.2, hanc pr hpr]
      have hclcong : evalClause s2.bit pr.1 = evalClause s0.bit pr.1 := by
        refine evalClause_congr _ _ _ (fun l hl => ?_)
        rw [hs2bit l.idx, hvarp l.idx ((hwf' pr hpr).2 l hl)]
      rw [hclcong, σge pr.2 (htg pr hpr).1]
      cases evalClause s0.bit pr.1 <;> rfl
    · have hqrev : q ∉ pairs.reverse.map Prod.snd := by
        rw [List.map_reverse]
        intro hmem
        exact hq (List.mem_reverse.1 hmem)
      rw [up_out q hqrev, hs2bit q, cp_out q hq]
  · show s3.phase = _
    rw [up_phase]
    show xor s1.phase (ts.all s1.bit) = _
    rw [cp_phase, hall, hval]

/-- Witness for C1: the oracle for `A & B` (clauses `[A]`, `[B]` on qubits
0, 1 with ancillas 2, 3) run on assignment `11` with phase `false`. -/
theorem oracle_marks_exactly_solutions_instance :
    runGates (build_oracle_circuit 2 [[⟨0, false⟩], [⟨1, false⟩]])
      ⟨binStr 2 3 ++ List.replicate 2 false, false⟩
    = ⟨binStr 2 3 ++ List.replicate 2 false,
       xor false (decide (binStr 2 3 ∈ solve_classically 2 exprAB))⟩ :=
  oracle_marks_exactly_solutions 2 [[⟨0, false⟩], [⟨1, false⟩]] exprAB
    (by decide) (by decide) (by decide) 3 (by decide) false

/-- C8.  `construct_grover_circuit` with `iterations = 0` yields exactly
a Hadamard on each objective qubit followed by the measurement of objective
qubit `i` into classical bit `i`: no oracle gate, no diffuser. -/
theorem grover_circuit_zero_iterations (og : List Gate) (obj : List Nat) :
    construct_grover_circuit og obj 0 =
      obj.map COp.h ++ (obj.zip (List.range obj.length)).map
        (fun p => COp.measure p.1 p.2) := by
  simp [construct_grover_circuit]

/-- C2 counterexample.  For `A & ~B` the Classical Evaluator's solution
bitstring is `"10"` (variable `A` at character 0), while the backend's
measured bitstring for that same satisfying assignment is `"01"` (`A` on
qubit 0, printed last).  Direct string comparison therefore fails: the
backend string is not in `solve_classically`'s output. -/
theorem classical_vs_backend_encoding_mismatch :
    solve_classically 2 exprAnotB = [[true, false]] ∧
    backendBitstring 2 (fun j => [true, false].getD j false) = [false, true] ∧
    backendBitstring 2 (fun j => [true, false].getD j false)
      ∉ solve_classically 2 exprAnotB := by
  decide

/-- C2 (amended).  `solve_classically` places variable `j` at character
position `j` while the backend bitstring places it at position
`numVars-1-j`: the two encodings are character-reversals of each other, so
a backend bitstring matches the Classical Evaluator's output only after
reversal (equivalently after the index re-mapping `-(i+1)` that
`solve_unknown` performs), not by direct string equality. -/
theorem classical_backend_encodings_reversed (numVars : Nat) (expr : BExpr)
    (i : Nat) (hi : i < 2 ^ numVars) :
    ((binStr numVars i ∈ solve_classically numVars expr) ↔
      expr.eval (fun j => (binStr numVars i).getD j false) = true) ∧
    (backendBitstring numVars
        (fun j => (binStr numVars i).getD j false)).reverse
      = binStr numVars i ∧
    ∀ v, v < numVars →
      (backendBitstring numVars
          (fun j => (binStr numVars i).getD j false)).getD
          ((backendBitstring numVars
            (fun j => (binStr numVars i).getD j false)).length - 1 - v) false
        = (binStr numVars i).getD v false := by
  refine ⟨mem_solve_classically numVars expr i hi, ?_, ?_⟩
  · refine List.ext_getElem (by simp [backendBitstring, length_binStr])
      (fun t h1 h2 => ?_)
    have ht : t < numVars := by
      simpa [backendBitstring] using h1
    rw [List.getElem_reverse]
    simp only [backendBitstring, List.getElem_map, List.getElem_range,
      List.length_map, List.length_range]
    have harith : numVars - 1 - (numVars - 1 - t) = t := by omega
    rw [harith, List.getD_eq_getElem _ _ (by rw [length_binStr]; exact ht)]
  · intro v hv
    have hlen : (backendBitstring numVars
        (fun j => (binStr numVars i).getD j false)).length = numVars := by
      simp [backendBitstring]
    have hpos : numVars - 1 - v < numVars := by omega
    rw [hlen, List.getD_eq_getElem _ _ (by rw [hlen]; exact hpos)]
    simp only [backendBitstring, List.getElem_map, List.getElem_range]
    have harith : numVars - 1 - (numVars - 1 - v) = v := by omega
    rw [harith]

/-- Witness for the amended C2 at `A & ~B`, assignment index 2 (`"10"`). -/
theorem classical_backend_encodings_reversed_instance :
    ((binStr 2 2 ∈ solve_classically 2 exprAnotB) ↔
      exprAnotB.eval (fun j => (binStr 2 2).getD j false) = true) ∧
    (backendBitstring 2 (fun j => (binStr 2 2).getD j false)).reverse
      = binStr 2 2 ∧
    ∀ v, v < 2 →
      (backendBitstring 2 (fun j => (binStr 2 2).getD j false)).getD
          ((backendBitstring 2
            (fun j => (binStr 2 2).getD j false)).length - 1 - v) false
        = (binStr 2 2).getD v false :=
  classical_backend_encodings_reversed 2 exprAnotB 2 (by decide)

/-! ### The adaptive search loop of `solve_unknown` -/

theorem solve_unknown_go_zero (expr : BExpr) (R : Nat → Nat → Nat → Nat)
    (tops : Nat → List Bool) (N : Nat) (m : Rat) (a : Nat) :
    solve_unknown_go expr R tops N m a 0 = ⟨false, none, none, a⟩ := rfl

theorem solve_unknown_go_succ (expr : BExpr) (R : Nat → Nat → Nat → Nat)
    (tops : Nat → List Bool) (N : Nat) (m : Rat) (a fuel : Nat) :
    solve_unknown_go expr R tops N m a (fuel + 1) =
      if m ^ 2 ≤ 4 * (N : Rat) then
        if verify_top expr (tops a) then
          ⟨true, some (tops a), some (attempt_draw R a m), a + 1⟩
        else
          solve_unknown_go expr R tops N (m * lam) (a + 1) fuel
      else ⟨false, none, none, a⟩ := rfl

/-- The squared bound test of the embedding agrees with the source's
`m <= math.sqrt(N) * 2` for the nonnegative `m` the loop maintains. -/
theorem m_bound_test_eq (N : Nat) (m : Rat) (hm : 0 ≤ m) :
    ((m : Real) ≤ Real.sqrt (N : Real) * 2 ↔ m ^ 2 ≤ 4 * (N : Rat)) := by
  have h0 : (0 : Real) ≤ Real.sqrt (N : Real) * 2 := by positivity
  have hm' : (0 : Real) ≤ (m : Real) := by exact_mod_cast hm
  have hsq : (Real.sqrt (N : Real) * 2) ^ 2 = 4 * (N : Real) := by
    rw [mul_pow, Real.sq_sqrt (by positivity : (0 : Real) ≤ (N : Real))]
    ring
  rw [← pow_le_pow_iff_left₀ hm' h0 (two_ne_zero), hsq]
  constructor
  · intro h
    exact_mod_cast h
  · intro h
    exact_mod_cast h

theorem lam_nonneg : (0 : Rat) ≤ lam := by norm_num [lam]

theorem solve_unknown_go_fuel_stable (expr : BExpr)
    (R : Nat → Nat → Nat → Nat) (tops : Nat → List Bool) (N : Nat) :
    ∀ (f : Nat) (m : Rat) (a g : Nat), 4 * (N : Rat) < (m * lam ^ f) ^ 2 →
      0 ≤ m →
      solve_unknown_go expr R tops N m a (f + g)
        = solve_unknown_go expr R tops N m a f := by
  intro f
  induction f with
  | zero =>
    intro m a g hlt _
    have hcond : ¬ (m ^ 2 ≤ 4 * (N : Rat)) := by
      rw [pow_zero, mul_one] at hlt
      exact not_le.2 hlt
    cases g with
    | zero => rfl
    | succ g =>
      rw [Nat.zero_add, solve_unknown_go_succ, if_neg hcond,
        solve_unknown_go_zero]
  | succ f ih =>
    intro m a g hlt hm
    have harith : f + 1 + g = (f + g) + 1 := by omega
    rw [harith, solve_unknown_go_succ, solve_unknown_go_succ]
    by_cases hc : m ^ 2 ≤ 4 * (N : Rat)
    · rw [if_pos hc, if_pos hc]
      by_cases hv : verify_top expr (tops a)
      · rw [if_pos hv, if_pos hv]
      · rw [if_neg hv, if_neg hv]
        refine ih (m * lam) (a + 1) g ?_ (mul_nonneg hm lam_nonneg)
        calc 4 * (N : Rat) < (m * lam ^ (f + 1)) ^ 2 := hlt
        _ = (m * lam * lam ^ f) ^ 2 := by ring
    · rw [if_neg hc, if_neg hc]

theorem solve_unknown_go_attempts_le (expr : BExpr)
    (R : Nat → Nat → Nat → Nat) (tops : Nat → List Bool) (N : Nat) :
    ∀ (fuel : Nat) (m : Rat) (a : Nat),
      (solve_unknown_go expr R tops N m a fuel).attempts ≤ a + fuel := by
  intro fuel
  induction fuel with
  | zero =>
    intro m a
    rw [solve_unknown_go_zero]
    show a ≤ a + 0
    omega
  | succ f ih =>
    intro m a
    rw [solve_unknown_go_succ]
    by_cases hc : m ^ 2 ≤ 4 * (N : Rat)
    · rw [if_pos hc]
      by_cases hv : verify_top expr (tops a)
      · rw [if_pos hv]
        show a + 1 ≤ a + (f + 1)
        omega
      · rw [if_neg hv]
        calc (solve_unknown_go expr R tops N (m * lam) (a + 1) f).attempts
            ≤ a + 1 + f := ih (m * lam) (a + 1)
        _ = a + (f + 1) := by omega
    · rw [if_neg hc]
      show a ≤ a + (f + 1)
      omega

theorem solve_unknown_go_all_fail (expr : BExpr)
    (R : Nat → Nat → Nat → Nat) (tops : Nat → List Bool) (N : Nat)
    (hfail : ∀ k, verify_top expr (tops k) = false) :
    ∀ (fuel : Nat) (m : Rat) (a : Nat),
      (solve_unknown_go expr R tops N m a fuel).found = false ∧
      (solve_unknown_go expr R tops N m a fuel).solution = none ∧
      (solve_unknown_go expr R tops N m a fuel).iterationsUsed = none := by
  intro fuel
  induction fuel with
  | zero =>
    intro m a
    rw [solve_unknown_go_zero]
    exact ⟨rfl, rfl, rfl⟩
  | succ f ih =>
    intro m a
    rw [solve_unknown_go_succ]
    by_cases hc : m ^ 2 ≤ 4 * (N : Rat)
    · rw [if_pos hc, if_neg (by rw [hfail a]; exact Bool.false_ne_true)]
      exact ih (m * lam) (a + 1)
    · rw [if_neg hc]
      exact ⟨rfl, rfl, rfl⟩

theorem solve_unknown_go_found_spec (expr : BExpr)
    (R : Nat → Nat → Nat → Nat) (tops : Nat → List Bool) (N : Nat) :
    ∀ (fuel : Nat) (m : Rat) (a : Nat),
      (solve_unknown_go expr R tops N m a fuel).found = true →
      ∃ j, (solve_unknown_go expr R tops N m a fuel).attempts = a + j + 1 ∧
        (solve_unknown_go expr R tops N m a fuel).solution
          = some (tops (a + j)) ∧
        verify_top expr (tops (a + j)) = true ∧
        (solve_unknown_go expr R tops N m a fuel).iterationsUsed
          = some (attempt_draw R (a + j) (m * lam ^ j)) := by
  intro fuel
  induction fuel with
  | zero =>
    intro m a hfound
    rw [solve_unknown_go_zero] at hfound
    exact absurd hfound Bool.false_ne_true
  | succ f ih =>
    intro m a hfound
    rw [solve_unknown_go_succ] at hfound ⊢
    by_cases hc : m ^ 2 ≤ 4 * (N : Rat)
    · rw [if_pos hc] at hfound ⊢
      by_cases hv : verify_top expr (tops a)
      · rw [if_pos hv]
        refine ⟨0, ?_, ?_, ?_, ?_⟩
        · show a + 1 = a + 0 + 1
          omega
        · show some (tops a) = some (tops (a + 0))
          rw [Nat.add_zero]
        · rw [Nat.add_zero]
          exact hv
        · show some (attempt_draw R a m) = some (attempt_draw R (a + 0) (m * lam ^ 0))
          rw [Nat.add_zero, pow_zero, mul_one]
      · rw [if_neg hv] at hfound ⊢
        obtain ⟨j, h1, h2, h3, h4⟩ := ih (m * lam) (a + 1) hfound
        refine ⟨j + 1, ?_, ?_, ?_, ?_⟩
        · rw [h1]
          omega
        · rw [h2]
          have : a + 1 + j = a + (j + 1) := by omega
          rw [this]
        · have : a + 1 + j = a + (j + 1) := by omega
          rw [← this]
          exact h3
        · rw [h4]
          have h5 : a + 1 + j = a + (j + 1) := by omega
          have h6 : m * lam * lam ^ j = m * lam ^ (j + 1) := by ring
          rw [h5, h6]
    · rw [if_neg hc] at hfound
      exact absurd hfound Bool.false_ne_true

theorem solve_unknown_go_notfound_none (expr : BExpr)
    (R : Nat → Nat → Nat → Nat) (tops : Nat → List Bool) (N : Nat) :
    ∀ (fuel : Nat) (m : Rat) (a : Nat),
      (solve_unknown_go expr R tops N m a fuel).found = false →
      (solve_unknown_go expr R tops N m a fuel).iterationsUsed = none := by
  intro fuel
  induction fuel with
  | zero =>
    intro m a _
    rw [solve_unknown_go_zero]
  | succ f ih =>
    intro m a hnf
    rw [solve_unknown_go_succ] at hnf ⊢
    by_cases hc : m ^ 2 ≤ 4 * (N : Rat)
    · rw [if_pos hc] at hnf ⊢
      by_cases hv : verify_top expr (tops a)
      · rw [if_pos hv] at hnf
        exact absurd hnf (by simp)
      · rw [if_neg hv] at hnf ⊢
        exact ih (m * lam) (a + 1) hnf
    · rw [if_neg hc]

/-- After `2*numVars + 5` failed attempts, `m^2 = lam^(2*(2*numVars+5))`
has certainly passed the loop bound `4 * 2^numVars`. -/
theorem lam_pow_bound (numVars : Nat) :
    4 * ((2 ^ numVars : Nat) : Rat)
      < (1 * lam ^ (unknown_fuel numVars)) ^ 2 := by
  rw [one_mul]
  have h1 : (lam ^ (unknown_fuel numVars)) ^ 2
      = ((36 : Rat) / 25) ^ (unknown_fuel numVars) := by
    rw [← pow_mul, show unknown_fuel numVars * 2 = 2 * unknown_fuel numVars
      from by ring, pow_mul]
    norm_num [lam]
  rw [h1]
  have h2 : 4 * ((2 ^ numVars : Nat) : Rat) = (2 : Rat) ^ (numVars + 2) := by
    push_cast
    ring
  rw [h2]
  have hexp : 2 * numVars + 4 = 2 * (numVars + 2) := by omega
  have h3 : (2 : Rat) ^ (numVars + 2) < ((36 : Rat) / 25) ^ (2 * numVars + 4) := by
    rw [hexp, pow_mul]
    refine pow_lt_pow_left₀ ?_ (by norm_num) (by omega)
    norm_num
  refine lt_of_lt_of_le h3 ?_
  refine pow_le_pow_right₀ (by norm_num) ?_
  unfold unknown_fuel
  omega

/-- C4.  The retry loop of `solve_unknown` terminates: the loop's value
is unchanged by any extra fuel beyond `unknown_fuel numVars` (the condition
`m <= 2*sqrt(N)` fails before that many attempts, since `m` starts at 1 and
is multiplied by 1.2 after every failed attempt), the attempt count is
bounded by `2*numVars + 5`, and when no sampled candidate ever verifies the
result reports `found = false` with no solution and no iteration count. -/
theorem solve_unknown_terminates (expr : BExpr) (numVars : Nat)
    (R : Nat → Nat → Nat → Nat) (tops : Nat → List Bool)
    (hfail : ∀ k, verify_top expr (tops k) = false) :
    (∀ extra, solve_unknown_go expr R tops (2 ^ numVars) 1 0
        (unknown_fuel numVars + extra) = solve_unknown expr numVars R tops) ∧
    (solve_unknown expr numVars R tops).attempts ≤ unknown_fuel numVars ∧
    (solve_unknown expr numVars R tops).found = false ∧
    (solve_unknown expr numVars R tops).solution = none := by
  refine ⟨?_, ?_, ?_, ?_⟩
  · intro extra
    exact solve_unknown_go_fuel_stable expr R tops (2 ^ numVars)
      (unknown_fuel numVars) 1 0 extra (lam_pow_bound numVars) (by norm_num)
  · have h := solve_unknown_go_attempts_le expr R tops (2 ^ numVars)
      (unknown_fuel numVars) 1 0
    show (solve_unknown_go expr R tops (2 ^ numVars) 1 0
      (unknown_fuel numVars)).attempts ≤ unknown_fuel numVars
    omega
  · exact (solve_unknown_go_all_fail expr R tops (2 ^ numVars) hfail
      (unknown_fuel numVars) 1 0).1
  · exact (solve_unknown_go_all_fail expr R tops (2 ^ numVars) hfail
      (unknown_fuel numVars) 1 0).2.1

/-- Witness for C4: the contradiction `A & ~A` with a backend that always
reports `"0"`; no candidate ever verifies. -/
theorem solve_unknown_terminates_instance :
    (solve_unknown exprContradiction 1 (fun _ _ _ => 1)
      (fun _ => [false])).found = false :=
  (solve_unknown_terminates exprContradiction 1 (fun _ _ _ => 1)
    (fun _ => [false]) (fun _ => rfl)).2.2.1

/-- C6.  Whenever `solve_unknown` reports `found = true`, the returned
solution is the top measurement of the last attempt, decoding it by giving
variable `i` the character at position `len-1-i` (Python index `-(i+1)`)
satisfies the parsed expression, and the result carries the winning
iteration count (the `randint` draw of that attempt) and the total attempt
count including the successful one. -/
theorem solve_unknown_found_correct (expr : BExpr) (numVars : Nat)
    (R : Nat → Nat → Nat → Nat) (tops : Nat → List Bool)
    (hfound : (solve_unknown expr numVars R tops).found = true) :
    1 ≤ (solve_unknown expr numVars R tops).attempts ∧
    (solve_unknown expr numVars R tops).solution
      = some (tops ((solve_unknown expr numVars R tops).attempts - 1)) ∧
    expr.eval (fun i =>
      (tops ((solve_unknown expr numVars R tops).attempts - 1)).getD
        ((tops ((solve_unknown expr numVars R tops).attempts - 1)).length
          - 1 - i) false) = true ∧
    (solve_unknown expr numVars R tops).iterationsUsed
      = some (attempt_draw R
          ((solve_unknown expr numVars R tops).attempts - 1)
          (lam ^ ((solve_unknown expr numVars R tops).attempts - 1))) := by
  have hres : solve_unknown expr numVars R tops
      = solve_unknown_go expr R tops (2 ^ numVars) 1 0
        (unknown_fuel numVars) := rfl
  rw [hres] at hfound ⊢
  obtain ⟨j, h1, h2, h3, h4⟩ := solve_unknown_go_found_spec expr R tops
    (2 ^ numVars) (unknown_fuel numVars) 1 0 hfound
  rw [one_mul] at h4
  have hz : (0 : Nat) + j = j := by omega
  rw [hz] at h1 h2 h3 h4
  have hj : (solve_unknown_go expr R tops (2 ^ numVars) 1 0
      (unknown_fuel numVars)).attempts - 1 = j := by omega
  rw [hj]
  exact ⟨by omega, h2, h3, h4⟩

/-- Witness for C6: searching for `A` with a backend that always reports
`"1"` succeeds on the first attempt. -/
theorem solve_unknown_found_correct_instance :
    1 ≤ (solve_unknown (BExpr.var 0) 1 (fun _ _ _ => 1)
        (fun _ => [true])).attempts ∧
    (solve_unknown (BExpr.var 0) 1 (fun _ _ _ => 1)
        (fun _ => [true])).solution
      = some ((fun _ => [true] : Nat → List Bool)
          ((solve_unknown (BExpr.var 0) 1 (fun _ _ _ => 1)
            (fun _ => [true])).attempts - 1)) ∧
    (BExpr.var 0).eval (fun i =>
      ((fun _ => [true] : Nat → List Bool)
          ((solve_unknown (BExpr.var 0) 1 (fun _ _ _ => 1)
            (fun _ => [true])).attempts - 1)).getD
        (((fun _ => [true] : Nat → List Bool)
          ((solve_unknown (BExpr.var 0) 1 (fun _ _ _ => 1)
            (fun _ => [true])).attempts - 1)).length - 1 - i) false) = true ∧
    (solve_unknown (BExpr.var 0) 1 (fun _ _ _ => 1)
        (fun _ => [true])).iterationsUsed
      = some (attempt_draw (fun _ _ _ => 1)
          ((solve_unknown (BExpr.var 0) 1 (fun _ _ _ => 1)
            (fun _ => [true])).attempts - 1)
          (lam ^ ((solve_unknown (BExpr.var 0) 1 (fun _ _ _ => 1)
            (fun _ => [true])).attempts - 1))) :=
  solve_unknown_found_correct (BExpr.var 0) 1 (fun _ _ _ => 1)
    (fun _ => [true])
    (by
      show (solve_unknown_go (BExpr.var 0) (fun _ _ _ => 1) (fun _ => [true])
        (2 ^ 1) 1 0 (unknown_fuel 1)).found = true
      rw [show unknown_fuel 1 = 6 + 1 from rfl, solve_unknown_go_succ,
        if_pos (by norm_num), if_pos (by decide)])

/-- C10.  Under the `randint(lo, hi)` contract (inclusive bounds), the
iteration count drawn by every attempt of `solve_unknown` — the call
`random.randint(1, max(1, int(m)))` embedded as `attempt_draw` — lies in
`[1, max(1, floor(m))]`; in particular any iteration count the search
reports having used is at least 1, so adaptive mode never runs a
zero-iteration circuit. -/
theorem randomized_iterations_in_range (R : Nat → Nat → Nat → Nat)
    (hR : ∀ a lo hi, lo ≤ hi → lo ≤ R a lo hi ∧ R a lo hi ≤ hi) :
    (∀ (a : Nat) (m : Rat), 1 ≤ attempt_draw R a m ∧
      attempt_draw R a m ≤ max 1 m.floor.toNat) ∧
    ∀ (expr : BExpr) (numVars : Nat) (tops : Nat → List Bool) (j : Nat),
      (solve_unknown expr numVars R tops).iterationsUsed = some j →
        1 ≤ j := by
  have hdraw : ∀ (a : Nat) (m : Rat), 1 ≤ attempt_draw R a m ∧
      attempt_draw R a m ≤ max 1 m.floor.toNat := fun a m =>
    hR a 1 (max 1 m.floor.toNat) (le_max_left 1 _)
  refine ⟨hdraw, ?_⟩
  intro expr numVars tops j hits
  by_cases hf : (solve_unknown expr numVars R tops).found = true
  · obtain ⟨j', _, _, _, h4⟩ := solve_unknown_go_found_spec expr R tops
      (2 ^ numVars) (unknown_fuel numVars) 1 0 hf
    have heq : some (attempt_draw R (0 + j') (1 * lam ^ j')) = some j := by
      rw [← h4]
      exact hits
    have hj : j = attempt_draw R (0 + j') (1 * lam ^ j') :=
      (Option.some.inj heq).symm
    rw [hj]
    exact (hdraw _ _).1
  · have hnone := solve_unknown_go_notfound_none expr R tops (2 ^ numVars)
      (unknown_fuel numVars) 1 0 (Bool.not_eq_true _ ▸ hf)
    have : (none : Option Nat) = some j := by
      rw [← hnone]
      exact hits
    exact absurd this (by simp)

/-- Witness for C10 with the sampler that always returns the lower bound. -/
theorem randomized_iterations_in_range_instance :
    1 ≤ attempt_draw (fun _ lo _ => lo) 0 1 :=
  ((randomized_iterations_in_range (fun _ lo _ => lo)
    (fun _ lo _ h => ⟨Nat.le_refl lo, h⟩)).1 0 1).1

/-- C5.  With no iteration count supplied and `M ≥ 1`, `solve_quantum`
computes `iterations = max(1, round(pi/(4*theta) - 0.5))` with
`theta = asin(sqrt(M/N))`; for `A & B` (`M = 1`, `N = 4`) the computed
count is exactly 1. -/
theorem known_m_iteration_formula :
    (∀ M N : Nat, M ≠ 0 → grover_iterations_auto M N
      = (max 1 (round (Real.pi / (4 * grover_theta M N) - 0.5))).toNat) ∧
    (solve_classically 2 exprAB).length = 1 ∧
    solve_quantum_iterations exprAB 2 none = 1 := by
  refine ⟨?_, by decide, ?_⟩
  · intro M N hM
    unfold grover_iterations_auto
    rw [if_neg hM]
  · show grover_iterations_auto (solve_classically 2 exprAB).length (2 ^ 2) = 1
    have hlen : (solve_classically 2 exprAB).length = 1 := by decide
    rw [hlen]
    unfold grover_iterations_auto
    rw [if_neg (by norm_num)]
    have htheta : grover_theta 1 (2 ^ 2) = Real.pi / 6 := by
      unfold grover_theta
      have h1 : ((1 : Nat) : Real) / (((2 ^ 2 : Nat)) : Real)
          = (1 / 2) ^ 2 := by
        norm_num
      rw [h1, Real.sqrt_sq (by norm_num), ← Real.sin_pi_div_six]
      refine Real.arcsin_sin ?_ ?_
      · have := Real.pi_pos
        linarith
      · have := Real.pi_pos
        linarith
    rw [htheta]
    have hval : Real.pi / (4 * (Real.pi / 6)) - 0.5 = 1 := by
      have hpi := Real.pi_ne_zero
      rw [show (0.5 : Real) = 1 / 2 from by norm_num]
      field_simp
      ring
    rw [hval, round_one]
    norm_num

/-- Witness for C5: the formula branch at `M = 1`, `N = 4`. -/
theorem known_m_iteration_formula_instance :
    grover_iterations_auto 1 4
      = (max 1 (round (Real.pi / (4 * grover_theta 1 4) - 0.5))).toNat :=
  known_m_iteration_formula.1 1 4 (by decide)

/-- C3 (code bug).  Evaluating the code at the claim's input `"A & ~A"`:
the Classical Evaluator does return the empty solution list, but sympy's
`to_cnf(A & ~A, simplify=True)` is the constant `False`, which
destructures to a single clause whose only literal prints as `"False"`;
`apply_clause`'s `var_map["False"]` lookup raises `KeyError('False')`, so
`solve_quantum` raises `ValueError("Error creating Oracle: 'False'")`
before ever reaching its `M == 0` short-circuit (lines 130–131), and
`solve_unknown`'s `try/except` re-raises the same wrapped error instead of
returning `found = false`.  The claim describes the intended short-circuit
— the code's `M == 0` branch exists but is unreachable for this input. -/
theorem contradiction_raises_oracle_error :
    solve_classically 1 exprContradiction = [] ∧
    build_oracle_circuitE (fun _ => [[⟨"False", false⟩]])
      (fun _ => some exprContradiction) "A & ~A" = .error "'False'" ∧
    solve_quantumE (fun _ => [[⟨"False", false⟩]])
      (fun _ => some exprContradiction) (fun _ => []) "A & ~A" none
      = .error "Error creating Oracle: 'False'" ∧
    solve_unknownE (fun _ => [[⟨"False", false⟩]])
      (fun _ => some exprContradiction) (fun _ _ _ => 1) (fun _ => [])
      "A & ~A" = .error "Error creating Oracle: 'False'" := by
  have hv : varNames "A & ~A" = ["A"] := by decide
  have hparse : parse_expression (fun _ => some exprContradiction) "A & ~A"
      = .ok (exprContradiction, ["A"]) := by
    unfold parse_expression
    rw [hv, if_neg (by simp)]
  have hres : resolveCNF ["A"] [[(⟨"False", false⟩ : RawLiteral)]]
      = .error "'False'" := rfl
  have hwrap : ("Error creating Oracle: " ++ "'False'" : String)
      = "Error creating Oracle: 'False'" := by decide
  refine ⟨by decide, ?_, ?_, ?_⟩
  · simp only [build_oracle_circuitE, hparse, hres]
  · simp only [solve_quantumE, hparse, hres, hwrap]
  · simp only [solve_unknownE, hparse, hres, hwrap]

/-! ### Failure propagation at the string level -/

theorem build_oracle_error_cases (toCNF : BExpr → RawCNF)
    (pext : String → Option BExpr) (s : String) (msg : String)
    (herr : build_oracle_circuitE toCNF pext s = .error msg) :
    parse_expression pext s = .error msg ∨
    ∃ e vars, parse_expression pext s = .ok (e, vars) ∧
      resolveCNF vars (toCNF e) = .error msg := by
  unfold build_oracle_circuitE at herr
  cases hp : parse_expression pext s with
  | error e =>
    rw [hp] at herr
    simp only at herr
    injection herr with hmsg
    left
    rw [hmsg]
  | ok v =>
    obtain ⟨e, vars⟩ := v
    rw [hp] at herr
    simp only at herr
    right
    refine ⟨e, vars, rfl, ?_⟩
    cases hr : resolveCNF vars (toCNF e) with
    | error e2 =>
      rw [hr] at herr
      simp only at herr
      injection herr with hmsg
      rw [hmsg]
    | ok cnf =>
      rw [hr] at herr
      simp at herr

/-- C7 (amended).  When oracle compilation fails, `solve_quantum` aborts
with `ValueError("Error creating Oracle: ...")`; `solve_unknown` aborts
with the unwrapped parse error when parsing fails (raised at line 208,
before its `try/except`) and with the wrapped `"Error creating Oracle:
..."` when compilation fails after a successful parse (the `var_map`
`KeyError` path, e.g. a constant CNF); neither substitutes a result for
the failure — but `get_histogram_data` does: it returns the empty
histogram for every compile failure. -/
theorem oracle_failure_aborts_search (toCNF : BExpr → RawCNF)
    (pext : String → Option BExpr) (run : List COp → List Bool)
    (R : Nat → Nat → Nat → Nat) (tops : Nat → List Bool)
    (runCounts : List COp → List (List Bool × Nat)) (s : String)
    (iterations : Option Nat) (msg : String)
    (herr : build_oracle_circuitE toCNF pext s = .error msg) :
    solve_quantumE toCNF pext run s iterations
      = .error ("Error creating Oracle: " ++ msg) ∧
    (parse_expression pext s = .error msg →
      solve_unknownE toCNF pext R tops s = .error msg) ∧
    (∀ e vars, parse_expression pext s = .ok (e, vars) →
      solve_unknownE toCNF pext R tops s
        = .error ("Error creating Oracle: " ++ msg)) ∧
    get_histogram_data toCNF pext runCounts s iterations = [] := by
  rcases build_oracle_error_cases toCNF pext s msg herr with
    hp | ⟨e0, vars0, hp, hres⟩
  · refine ⟨?_, ?_, ?_, ?_⟩
    · unfold solve_quantumE
      rw [hp]
    · intro _
      unfold solve_unknownE
      rw [hp]
    · intro e vars hpe
      rw [hp] at hpe
      exact absurd hpe (by simp)
    · unfold get_histogram_data
      rw [hp]
  · refine ⟨?_, ?_, ?_, ?_⟩
    · simp only [solve_quantumE, hp, hres]
    · intro hperr
      rw [hp] at hperr
      exact absurd hperr (by simp)
    · intro e vars hpe
      rw [hp] at hpe
      injection hpe with hpair
      injection hpair with he hvars
      subst he
      subst hvars
      simp only [solve_unknownE, hp, hres]
    · simp only [get_histogram_data, hp, hres]

/-- Witness for the amended C7: the expression `"1 + 2"` has no variable
token, so compilation fails and `solve_quantum` wraps the error. -/
theorem oracle_failure_aborts_search_instance :
    solve_quantumE (fun _ => []) (fun _ => none) (fun _ => []) "1 + 2" none
      = .error
        ("Error creating Oracle: " ++ "no variables found in expression") :=
  (oracle_failure_aborts_search (fun _ => []) (fun _ => none) (fun _ => [])
    (fun _ _ _ => 1) (fun _ => []) (fun _ => []) "1 + 2" none
    "no variables found in expression"
    (by
      unfold build_oracle_circuitE parse_expression
      rw [show varNames "1 + 2" = [] from by decide, if_pos rfl])).1

/-- C7 counterexample.  `get_histogram_data` is a search path that
silently substitutes the empty histogram for a compile failure, in both
failure modes: on `"1 + 2"` parsing fails, and on `"A & ~A"` the
constant-`False` CNF fails the `var_map` lookup after a successful parse;
in both cases it returns `{}` rather than raising — even with a backend
that would report non-empty counts. -/
theorem histogram_swallows_oracle_failure :
    build_oracle_circuitE (fun _ => []) (fun _ => none) "1 + 2"
      = .error "no variables found in expression" ∧
    get_histogram_data (fun _ => []) (fun _ => none)
      (fun _ => [([true], 1024)]) "1 + 2" none = [] ∧
    build_oracle_circuitE (fun _ => [[⟨"False", false⟩]])
      (fun _ => some exprContradiction) "A & ~A" = .error "'False'" ∧
    get_histogram_data (fun _ => [[⟨"False", false⟩]])
      (fun _ => some exprContradiction) (fun _ => [([true], 1024)])
      "A & ~A" none = [] := by
  have hp1 : parse_expression (fun _ => (none : Option BExpr)) "1 + 2"
      = .error "no variables found in expression" := by
    unfold parse_expression
    rw [show varNames "1 + 2" = [] from by decide, if_pos rfl]
  have hv : varNames "A & ~A" = ["A"] := by decide
  have hp2 : parse_expression (fun _ => some exprContradiction) "A & ~A"
      = .ok (exprContradiction, ["A"]) := by
    unfold parse_expression
    rw [hv, if_neg (by simp)]
  have hres : resolveCNF ["A"] [[(⟨"False", false⟩ : RawLiteral)]]
      = .error "'False'" := rfl
  refine ⟨?_, ?_, ?_, ?_⟩
  · unfold build_oracle_circuitE
    rw [hp1]
  · unfold get_histogram_data
    rw [hp1]
  · simp only [build_oracle_circuitE, hp2, hres]
  · simp only [get_histogram_data, hp2, hres]

/-! ### Variable discovery of `parse_expression` -/

theorem charListLe_total : ∀ as bs : List Char,
    charListLe as bs = true ∨ charListLe bs as = true := by
  intro as
  induction as with
  | nil => intro bs; left; rfl
  | cons a as ih =>
    intro bs
    cases bs with
    | nil => right; rfl
    | cons b bs =>
      rcases lt_trichotomy a b with h | h | h
      · left
        simp [charListLe, h]
      · subst h
        rcases ih bs with h2 | h2
        · left
          simp [charListLe, h2]
        · right
          simp [charListLe, h2]
      · right
        simp [charListLe, h]

theorem charListLe_trans : ∀ as bs cs : List Char,
    charListLe as bs = true → charListLe bs cs = true →
    charListLe as cs = true := by
  intro as
  induction as with
  | nil => intro bs cs _ _; rfl
  | cons a as ih =>
    intro bs cs hab hbc
    cases bs with
    | nil => simp [charListLe] at hab
    | cons b bs =>
      cases cs with
      | nil => simp [charListLe] at hbc
      | cons c cs =>
        simp only [charListLe] at hab hbc ⊢
        by_cases h1 : a < b
        · by_cases h2 : b < c
          · simp [lt_trans h1 h2]
          · by_cases h3 : c < b
            · simp [h2, h3] at hbc
            · have hbc' : b = c := le_antisymm (not_lt.1 h3) (not_lt.1 h2)
              subst hbc'
              simp [h1]
        · by_cases h4 : b < a
          · simp [h1, h4] at hab
          · have hab' : a = b := le_antisymm (not_lt.1 h4) (not_lt.1 h1)
            subst hab'
            rw [if_neg h1, if_neg h4] at hab
            by_cases h2 : a < c
            · simp [h2]
            · by_cases h3 : c < a
              · simp [h2, h3] at hbc
              · rw [if_neg h2, if_neg h3] at hbc ⊢
                exact ih bs cs hab hbc

theorem charListLe_antisymm : ∀ as bs : List Char,
    charListLe as bs = true → charListLe bs as = true → as = bs := by
  intro as
  induction as with
  | nil =>
    intro bs _ hba
    cases bs with
    | nil => rfl
    | cons b bs => simp [charListLe] at hba
  | cons a as ih =>
    intro bs hab hba
    cases bs with
    | nil => simp [charListLe] at hab
    | cons b bs =>
      simp only [charListLe] at hab hba
      by_cases h1 : a < b
      · simp [h1, asymm h1] at hba
      · by_cases h2 : b < a
        · simp [h1, h2] at hab
        · have h3 : a = b := le_antisymm (not_lt.1 h2) (not_lt.1 h1)
          subst h3
          rw [if_neg h1, if_neg h1] at hab hba
          rw [ih bs hab hba]

theorem stringLe_total (a b : String) :
    stringLe a b = true ∨ stringLe b a = true :=
  charListLe_total a.toList b.toList

theorem stringLe_trans (a b c : String) (h1 : stringLe a b = true)
    (h2 : stringLe b c = true) : stringLe a c = true :=
  charListLe_trans a.toList b.toList c.toList h1 h2

theorem stringLe_antisymm (a b : String) (h1 : stringLe a b = true)
    (h2 : stringLe b a = true) : a = b := by
  have h := charListLe_antisymm a.toList b.toList h1 h2
  cases a with
  | mk da =>
    cases b with
    | mk db =>
      simp only [String.toList] at h
      rw [h]

theorem alphaRunsAux_eq_nil : ∀ (l : List Char) (acc : List Char),
    (alphaRunsAux l acc = [] ↔
      acc = [] ∧ ∀ c ∈ l, isAlphaChar c = false) := by
  intro l
  induction l with
  | nil =>
    intro acc
    by_cases h : acc = [] <;> simp [alphaRunsAux, h]
  | cons c rest ih =>
    intro acc
    by_cases hc : isAlphaChar c
    · simp only [alphaRunsAux, if_pos hc]
      rw [ih (c :: acc)]
      simp [hc]
    · simp only [alphaRunsAux, if_neg hc]
      by_cases ha : acc = []
      · rw [if_pos ha, ih []]
        have hcf : isAlphaChar c = false := by
          revert hc
          cases isAlphaChar c <;> simp
        simp [ha, hcf]
      · rw [if_neg ha]
        simp [ha]

theorem varNames_eq_nil_iff (s : String) :
    varNames s = [] ↔ ∀ c ∈ s.toList, isAlphaChar c = false := by
  unfold varNames
  constructor
  · intro h
    have hperm := List.perm_insertionSort
      (fun a b => stringLe a b = true) ((alphaRuns s.toList).dedup)
    rw [h] at hperm
    have hd : (alphaRuns s.toList).dedup = [] := hperm.symm.eq_nil
    have hr : alphaRuns s.toList = [] := (List.dedup_eq_nil _).1 hd
    exact ((alphaRunsAux_eq_nil s.toList []).1 hr).2
  · intro h
    have hr : alphaRuns s.toList = [] :=
      (alphaRunsAux_eq_nil s.toList []).2 ⟨rfl, h⟩
    rw [hr]
    rfl

/-- C9.  `parse_expression`'s variable list is the distinct maximal
alphabetic tokens of the input in lexicographic (code-point, case-sensitive)
order: it is sorted, duplicate-free, and contains exactly the regex's
tokens; sorting is independent of the iteration order of Python's `set`
(any permutation of the deduplicated tokens sorts to the same list), so the
ordering — and hence the qubit assignment `var_map` — is deterministic.
When the external parser succeeds, `parse_expression` returns that list;
when the string has no alphabetic token it raises the parse error. -/
theorem parse_expression_vars_spec (s : String)
    (pext : String → Option BExpr) :
    List.Sorted (fun a b => stringLe a b = true) (varNames s) ∧
    (varNames s).Nodup ∧
    (∀ a, a ∈ varNames s ↔ a ∈ alphaRuns s.toList) ∧
    (∀ l : List String, l.Perm ((alphaRuns s.toList).dedup) →
      l.insertionSort (fun a b => stringLe a b = true) = varNames s) ∧
    ((∃ c ∈ s.toList, isAlphaChar c = true) → ∀ e, pext s = some e →
      parse_expression pext s = .ok (e, varNames s)) ∧
    ((∀ c ∈ s.toList, isAlphaChar c = false) →
      parse_expression pext s
        = .error "no variables found in expression") := by
  letI htotal : IsTotal String (fun a b => stringLe a b = true) :=
    ⟨stringLe_total⟩
  letI htrans : IsTrans String (fun a b => stringLe a b = true) :=
    ⟨stringLe_trans⟩
  letI hanti : IsAntisymm String (fun a b => stringLe a b = true) :=
    ⟨stringLe_antisymm⟩
  refine ⟨?_, ?_, ?_, ?_, ?_, ?_⟩
  · exact List.sorted_insertionSort _ _
  · exact ((List.perm_insertionSort _ _).nodup_iff).2 (List.nodup_dedup _)
  · intro a
    unfold varNames
    rw [(List.perm_insertionSort _ _).mem_iff, List.mem_dedup]
  · intro l hl
    unfold varNames
    refine List.eq_of_perm_of_sorted ?_ (List.sorted_insertionSort _ _)
      (List.sorted_insertionSort _ _)
    exact ((List.perm_insertionSort _ _).trans hl).trans
      (List.perm_insertionSort _ _).symm
  · intro htok e hpe
    unfold parse_expression
    have hne : ¬ (varNames s = []) := by
      rw [varNames_eq_nil_iff]
      intro hall
      obtain ⟨c, hcmem, hct⟩ := htok
      rw [hall c hcmem] at hct
      exact Bool.false_ne_true hct
    rw [if_neg hne, hpe]
  · intro hnone
    unfold parse_expression
    rw [if_pos ((varNames_eq_nil_iff s).2 hnone)]

/-- Witness for C9 on `"B & a"` (note `"B" < "a"` by code point). -/
theorem parse_expression_vars_spec_instance :
    parse_expression (fun _ => some (BExpr.var 0)) "B & a"
      = .ok (BExpr.var 0, varNames "B & a") :=
  (parse_expression_vars_spec "B & a"
    (fun _ => some (BExpr.var 0))).2.2.2.2.1 (by decide) (BExpr.var 0) rfl
